import Mathlib

/-!
Verification of the file-classification-and-relocation engine in
`organise_files.py` (the only component of the repository with decision
logic; the Flask handler and the Tkinter shell are declared out of scope
by the specification).

The development shallowly embeds the script:

* `lowerStr` models Python `str.lower()` for ASCII data (all extensions in
  the shipped configuration and in the claims are ASCII);
* `pySuffix` transcribes CPython `pathlib.PurePath.suffix`:
  `i = name.rfind('.'); return name[i:] if 0 < i < len(name)-1 else ''`;
* `CATEGORIES`, `extToCategories`, `buildTable`, `EXTENSION_TO_CATEGORY`
  and `get_category_for_file` embed lines 19-58 of the script;
* a small filesystem model (`Node`, `FS`) together with `mkdirExistOk`,
  `unlinkIfExists`, `renameStep`, `processFile`, `orgLoop` and
  `organise_folder` embeds `organise_folder` (lines 61-121).
-/

namespace OrganiseFiles

/-- Python `str.lower()` restricted to ASCII case folding, which is all the
configuration and the lookups exercise. -/
def lowerStr (s : String) : String :=
  String.mk (s.toList.map Char.toLower)

/-- Index of the last `'.'` in a list of characters (Python `str.rfind('.')`
restricted to a found result), `none` when there is no dot. -/
def lastDotIdx : List Char → Option Nat
  | [] => none
  | c :: cs =>
    match lastDotIdx cs with
    | some i => some (i + 1)
    | none => if c = '.' then some 0 else none

/-- CPython `pathlib.PurePath.suffix` on a base name: the slice from the last
dot, but only when that dot is neither the first nor the last character;
otherwise the empty string. -/
def pySuffix (name : String) : String :=
  match lastDotIdx name.toList with
  | none => ""
  | some i =>
    if 0 < i ∧ i < name.toList.length - 1 then String.mk (name.toList.drop i) else ""

/-- The extension rule exactly as the specification words it for C6: the
suffix after the last dot, including the dot; a name with no dot yields the
empty string.  Kept separate from `pySuffix` so the two can be compared. -/
def lastDotExt (name : String) : String :=
  match lastDotIdx name.toList with
  | none => ""
  | some i => String.mk (name.toList.drop i)

/-! ### Category configuration (script lines 19-38) -/

def images : List String :=
  [".png", ".jpg", ".jpeg", ".gif", ".bmp", ".webp", ".svg", ".ico", ".tiff", ".tif"]

def videos : List String :=
  [".mp4", ".avi", ".mkv", ".mov", ".wmv", ".flv", ".webm", ".m4v", ".mpeg", ".mpg"]

def documents : List String :=
  [".pdf", ".doc", ".docx", ".xls", ".xlsx", ".ppt", ".pptx", ".txt", ".rtf",
   ".odt", ".ods", ".odp", ".csv", ".md", ".tex"]

def audio : List String :=
  [".mp3", ".wav", ".flac", ".aac", ".ogg", ".wma", ".m4a", ".opus"]

def archives : List String :=
  [".zip", ".rar", ".7z", ".tar", ".gz", ".bz2", ".xz", ".iso"]

def executables : List String :=
  [".exe", ".msi", ".bat", ".cmd", ".sh", ".app", ".dmg"]

def code : List String :=
  [".py", ".js", ".ts", ".html", ".css", ".json", ".xml", ".yaml", ".yml",
   ".java", ".c", ".cpp", ".h", ".cs", ".go", ".rs", ".rb", ".php"]

/-- Ordered category configuration: category name paired with the ordered
list of extensions it claims (the Python `CATEGORIES` dict, whose iteration
order is insertion order). -/
def CATEGORIES : List (String × List String) :=
  [("Images", images), ("Videos", videos), ("Documents", documents),
   ("Audio", audio), ("Archives", archives), ("Executables", executables),
   ("Code", code)]

def OTHERS : String := "Others"

/-! ### Association lists

Python dicts (insertion-ordered) are modelled as association lists.
`alistGet` is lookup, `alistPut` replaces the first matching key in place or
appends a fresh entry at the end, `alistDel` removes the first matching
entry. -/

def alistGet {α β : Type} [DecidableEq α] : List (α × β) → α → Option β
  | [], _ => none
  | (k, v) :: rest, x => if k = x then some v else alistGet rest x

def alistPut {α β : Type} [DecidableEq α] : List (α × β) → α → β → List (α × β)
  | [], k, v => [(k, v)]
  | (k0, v0) :: rest, k, v =>
    if k0 = k then (k, v) :: rest else (k0, v0) :: alistPut rest k v

def alistDel {α β : Type} [DecidableEq α] : List (α × β) → α → List (α × β)
  | [], _ => []
  | (k0, v0) :: rest, k => if k0 = k then rest else (k0, v0) :: alistDel rest k

/-! ### Category map builder (script lines 43-52) -/

/-- One execution of `_ext_to_categories.setdefault(ext, []).append(cat)`:
append `cat` to the bucket of `ext`, creating the bucket when absent. -/
def addClaim : List (String × List String) → String → String → List (String × List String)
  | [], ext, cat => [(ext, [cat])]
  | (e, cs) :: rest, ext, cat =>
    if e = ext then (e, cs ++ [cat]) :: rest
    else (e, cs) :: addClaim rest ext cat

/-- The double loop of script lines 44-47: for each category, for each of its
extensions, record the (lower-cased) extension as claimed by the category. -/
def extToCategories (cfg : List (String × List String)) : List (String × List String) :=
  cfg.foldl (fun m p => p.2.foldl (fun m2 ext => addClaim m2 (lowerStr ext) p.1) m) []

/-- The value expression of script line 50: `cats[0] if len(cats) == 1 else OTHERS`. -/
def resolveCats : List String → String
  | [c] => c
  | _ => OTHERS

/-- The dict comprehension of script lines 49-52:
`ext: cats[0] if len(cats) == 1 else OTHERS`. -/
def buildTable (cfg : List (String × List String)) : List (String × String) :=
  (extToCategories cfg).map fun p => (p.1, resolveCats p.2)

/-- The shipped classification table `EXTENSION_TO_CATEGORY`. -/
def EXTENSION_TO_CATEGORY : List (String × String) :=
  buildTable CATEGORIES

/-- Python `dict.get(ext, OTHERS)`. -/
def lookupTable (t : List (String × String)) (ext : String) : String :=
  match alistGet t ext with
  | some c => c
  | none => OTHERS

/-- Script lines 55-58: `ext = file_path.suffix.lower();
return EXTENSION_TO_CATEGORY.get(ext, OTHERS)`, as a function of the file's
base name. -/
def get_category_for_file (name : String) : String :=
  lookupTable EXTENSION_TO_CATEGORY (lowerStr (pySuffix name))

/-! ### Specification-side views of the configuration, for C1 -/

/-- All declared (category, extension) pairs whose normalized extension is
`x`, listed as their category names with multiplicity, in declaration
order. -/
def claimants : List (String × List String) → String → List String
  | [], _ => []
  | (cname, exts) :: rest, x =>
    ((exts.filter fun e => lowerStr e == x).map fun _ => cname) ++ claimants rest x

/-- The set (without multiplicity) of category names that claim normalized
extension `x`: the reading of "category claims the extension" used by
claim C1. -/
def claimingCategories (cfg : List (String × List String)) (x : String) : List String :=
  (cfg.filter fun p => p.2.any fun e => lowerStr e == x).map Prod.fst

/-! ### Builder lemmas -/

theorem alistGet_addClaim (m : List (String × List String)) (e c x : String) :
    alistGet (addClaim m e c) x =
      if x = e then some (((alistGet m e).getD []) ++ [c]) else alistGet m x := by
  induction m with
  | nil =>
    by_cases h : x = e
    · subst h; simp [addClaim, alistGet]
    · have h2 : ¬e = x := fun h3 => h h3.symm
      simp [addClaim, alistGet, h, h2]
  | cons p rest ih =>
    obtain ⟨k, v⟩ := p
    by_cases hk : k = e
    · subst hk
      by_cases hx : x = k
      · subst hx; simp [addClaim, alistGet]
      · have h2 : ¬k = x := fun h3 => hx h3.symm
        simp [addClaim, alistGet, hx, h2]
    · by_cases hx : x = k
      · subst hx
        simp [addClaim, alistGet, hk]
      · have h2 : ¬k = x := fun h3 => hx h3.symm
        simp only [addClaim, if_neg hk, alistGet, if_neg h2, ih]

/-- Effect of the inner fold (one category's extension list) on a bucket. -/
theorem innerFold_getD (exts : List String) (cat x : String) :
    ∀ m : List (String × List String),
      (alistGet (exts.foldl (fun m2 ext => addClaim m2 (lowerStr ext) cat) m) x).getD [] =
        ((alistGet m x).getD []) ++
          ((exts.filter fun e => lowerStr e == x).map fun _ => cat) := by
  induction exts with
  | nil => intro m; simp
  | cons e rest ih =>
    intro m
    by_cases h : lowerStr e = x
    · simp only [List.foldl_cons, ih, alistGet_addClaim, h, List.filter_cons,
        List.map_cons, beq_iff_eq, if_pos rfl]
      simp [h, List.append_assoc]
    · have hne : ¬(lowerStr e == x) = true := by simp [h]
      simp only [List.foldl_cons, ih, alistGet_addClaim, List.filter_cons, hne]
      have : x ≠ lowerStr e := fun h2 => h h2.symm
      simp [this]

/-- The bucket can only be empty when the extension is undeclared. -/
theorem innerFold_none (exts : List String) (cat x : String) :
    ∀ m : List (String × List String),
      alistGet (exts.foldl (fun m2 ext => addClaim m2 (lowerStr ext) cat) m) x = none →
        alistGet m x = none ∧ (exts.filter fun e => lowerStr e == x) = [] := by
  induction exts with
  | nil => intro m h; simpa using h
  | cons e rest ih =>
    intro m h
    obtain ⟨h1, h2⟩ := ih _ h
    rw [alistGet_addClaim] at h1
    by_cases hx : x = lowerStr e
    · simp [hx] at h1
    · rw [if_neg hx] at h1
      refine ⟨h1, ?_⟩
      have : ¬(lowerStr e == x) = true := by
        simp only [beq_iff_eq]; exact fun h3 => hx h3.symm
      simp [List.filter_cons, this, h2]

/-- Characterization of the whole builder fold: for every extension the
bucket holds exactly the claimant categories, in order with multiplicity. -/
theorem extToCategories_getD (cfg : List (String × List String)) (x : String) :
    ∀ m : List (String × List String),
      (alistGet (cfg.foldl
          (fun m p => p.2.foldl (fun m2 ext => addClaim m2 (lowerStr ext) p.1) m) m) x).getD [] =
        ((alistGet m x).getD []) ++ claimants cfg x := by
  induction cfg with
  | nil => intro m; simp [claimants]
  | cons p rest ih =>
    intro m
    obtain ⟨cname, exts⟩ := p
    simp only [List.foldl_cons, ih, innerFold_getD, claimants, List.append_assoc]

theorem extToCategories_none (cfg : List (String × List String)) (x : String) :
    ∀ m : List (String × List String),
      alistGet (cfg.foldl
          (fun m p => p.2.foldl (fun m2 ext => addClaim m2 (lowerStr ext) p.1) m) m) x = none →
        alistGet m x = none ∧ claimants cfg x = [] := by
  induction cfg with
  | nil => intro m h; simpa [claimants] using h
  | cons p rest ih =>
    intro m h
    obtain ⟨h1, h2⟩ := ih _ h
    obtain ⟨h3, h4⟩ := innerFold_none _ _ _ _ h1
    refine ⟨h3, ?_⟩
    simp [claimants, h4, h2]

theorem claimants_ne_nil_getD (cfg : List (String × List String)) (x : String)
    (h : claimants cfg x ≠ []) :
    alistGet (extToCategories cfg) x = some (claimants cfg x) := by
  have hg := extToCategories_getD cfg x []
  cases hget : alistGet (extToCategories cfg) x with
  | none =>
    obtain ⟨-, h2⟩ := extToCategories_none cfg x [] hget
    exact absurd h2 h
  | some l =>
    unfold extToCategories at hget
    rw [hget] at hg
    simp only [Option.getD_some, alistGet, Option.getD_none, List.nil_append] at hg
    rw [hg]

theorem alistGet_map_table (l : List (String × List String)) (x : String)
    (f : List String → String) :
    alistGet (l.map fun p => (p.1, f p.2)) x = (alistGet l x).map f := by
  induction l with
  | nil => simp [alistGet]
  | cons p rest ih =>
    obtain ⟨k, v⟩ := p
    by_cases h : k = x <;> simp [alistGet, h, ih]

/-- The table entry of a declared extension is the unique claimant when there
is exactly one declared pair for it, and the fallback otherwise. -/
theorem buildTable_lookup (cfg : List (String × List String)) (x : String)
    (h : claimants cfg x ≠ []) :
    alistGet (buildTable cfg) x = some (resolveCats (claimants cfg x)) := by
  unfold buildTable
  rw [alistGet_map_table, claimants_ne_nil_getD cfg x h]
  rfl

/-- C1, amended.  Writing `claimants cfg x` for the declared
(category, extension) pairs that normalize to `x` (with multiplicity, in
declaration order): if exactly one pair declares `x` the table maps `x` to
that pair's category, and if two or more pairs declare it — whether they come
from different categories or are duplicates inside one category — the table
maps `x` to the fallback `"Others"`. -/
theorem C1_table_resolution (cfg : List (String × List String)) (x c : String) :
    (claimants cfg x = [c] → alistGet (buildTable cfg) x = some c) ∧
    (2 ≤ (claimants cfg x).length → alistGet (buildTable cfg) x = some OTHERS) := by
  constructor
  · intro h
    have hne : claimants cfg x ≠ [] := by simp [h]
    rw [buildTable_lookup cfg x hne, h]
    rfl
  · intro h
    have hne : claimants cfg x ≠ [] := by
      intro h2; rw [h2] at h; simp at h
    rw [buildTable_lookup cfg x hne]
    rcases hc : claimants cfg x with - | ⟨a, - | ⟨b, t⟩⟩
    · exact absurd hc hne
    · rw [hc] at h; simp at h
    · rfl

/-- Witness for `C1_table_resolution`: in the configuration
`[("Docs", [".txt"]), ("Code", [".py", ".txt"])]` the uniquely declared
`".py"` maps to `"Code"` and the doubly declared `".txt"` maps to
`"Others"`. -/
theorem C1_table_resolution_witness :
    alistGet (buildTable [("Docs", [".txt"]), ("Code", [".py", ".txt"])]) ".py" =
        some "Code" ∧
      alistGet (buildTable [("Docs", [".txt"]), ("Code", [".py", ".txt"])]) ".txt" =
        some "Others" := by
  refine ⟨(C1_table_resolution [("Docs", [".txt"]), ("Code", [".py", ".txt"])] ".py" "Code").1
      (by decide), ?_⟩
  have h := (C1_table_resolution [("Docs", [".txt"]), ("Code", [".py", ".txt"])] ".txt"
      "Docs").2 (by decide)
  simpa [OTHERS] using h

/-- C1, counterexample.  In the configuration `[("Docs", [".txt", ".txt"])]`
exactly one category ("Docs") claims the extension `".txt"`, yet the built
table maps `".txt"` to `"Others"`, because the builder counts declared pairs,
not distinct claiming categories. -/
theorem C1_counterexample :
    claimingCategories [("Docs", [".txt", ".txt"])] ".txt" = ["Docs"] ∧
      alistGet (buildTable [("Docs", [".txt", ".txt"])]) ".txt" = some "Others" := by
  constructor <;> decide

/-! ### Extension derivation claims (C6, C10) -/

theorem lastDotIdx_of_no_dot (cs : List Char) (h : '.' ∉ cs) : lastDotIdx cs = none := by
  induction cs with
  | nil => rfl
  | cons c rest ih =>
    have hc : c ≠ '.' := fun h2 => h (by simp [h2])
    have hr : '.' ∉ rest := fun h2 => h (by simp [h2])
    simp [lastDotIdx, ih hr, hc]

/-- The empty extension is not a key of the shipped table. -/
theorem empty_ext_not_in_table : alistGet EXTENSION_TO_CATEGORY "" = none := by
  decide

/-- A file name whose derived `pySuffix` is empty is classified to the
fallback category. -/
theorem get_category_of_empty_suffix (name : String) (h : pySuffix name = "") :
    get_category_for_file name = OTHERS := by
  rw [get_category_for_file, h]
  have h2 : lowerStr "" = "" := rfl
  rw [h2]
  unfold lookupTable
  rw [empty_ext_not_in_table]

/-- C6, counterexample.  For the base name `".py"` the suffix after the last
dot (including the dot) is `".py"`, which the shipped table maps to `"Code"`;
but the code derives the empty extension (CPython `suffix` ignores a leading
dot) and classifies the file to `"Others"`. -/
theorem C6_counterexample :
    lastDotExt ".py" = ".py" ∧
      lookupTable EXTENSION_TO_CATEGORY ".py" = "Code" ∧
      pySuffix ".py" = "" ∧
      get_category_for_file ".py" = "Others" := by
  refine ⟨by decide, by decide, by decide, by decide⟩

/-- C6, amended.  The extension used for classification is the lower-cased
suffix after the last dot (including the dot) provided that dot is neither
the first nor the last character of the base name; otherwise — in particular
for a name with no dot — the derived extension is empty and the file is
classified to `"Others"`.  Unknown extensions also resolve to `"Others"`
because `lookupTable` falls back to `OTHERS` on a missed lookup. -/
theorem C6_extension_derivation (name : String) :
    match lastDotIdx name.toList with
    | some i =>
        if 0 < i ∧ i < name.toList.length - 1 then
          get_category_for_file name =
            lookupTable EXTENSION_TO_CATEGORY (lowerStr (lastDotExt name))
        else get_category_for_file name = OTHERS
    | none => get_category_for_file name = OTHERS := by
  cases h : lastDotIdx name.toList with
  | none =>
    show get_category_for_file name = OTHERS
    refine get_category_of_empty_suffix name ?_
    unfold pySuffix
    rw [h]
  | some i =>
    show if 0 < i ∧ i < name.toList.length - 1 then
        get_category_for_file name =
          lookupTable EXTENSION_TO_CATEGORY (lowerStr (lastDotExt name))
      else get_category_for_file name = OTHERS
    split_ifs with hcond
    · simp only [get_category_for_file, pySuffix, lastDotExt, h, if_pos hcond]
    · refine get_category_of_empty_suffix name ?_
      unfold pySuffix
      rw [h]
      show (if 0 < i ∧ i < name.toList.length - 1 then
          String.mk (name.toList.drop i) else "") = ""
      rw [if_neg hcond]

/-- C10.  A base name that begins with a dot and contains no further dot
derives the empty extension and is classified to the fallback `"Others"`,
regardless of whether the whole name textually equals a declared
extension. -/
theorem C10_dotfile_others (name : String) (h1 : name.toList.head? = some '.')
    (h2 : '.' ∉ name.toList.tail) :
    pySuffix name = "" ∧ get_category_for_file name = "Others" := by
  have hidx : lastDotIdx name.toList = some 0 := by
    cases hn : name.toList with
    | nil => rw [hn] at h1; simp at h1
    | cons c rest =>
      rw [hn] at h1 h2
      simp only [List.head?_cons, Option.some_inj] at h1
      simp only [List.tail_cons] at h2
      simp [lastDotIdx, lastDotIdx_of_no_dot rest h2, h1]
  have hsuf : pySuffix name = "" := by
    unfold pySuffix
    rw [hidx]
    simp
  exact ⟨hsuf, get_category_of_empty_suffix name hsuf⟩

/-- Witness for `C10_dotfile_others`: the name `".py"` — textually equal to an
extension declared by the "Code" category — is classified to `"Others"`. -/
theorem C10_dotfile_others_witness :
    ".py" ∈ code ∧ pySuffix ".py" = "" ∧ get_category_for_file ".py" = "Others" := by
  refine ⟨by decide, C10_dotfile_others ".py" (by decide) (by decide)⟩

/-! ### Filesystem model

The organizer only ever touches the target directory's immediate children
and paths of the form `root/<category>/<file name>`, so a state is a pair of
insertion-ordered association lists: `top` maps a name to the entry directly
under the root, `sub` maps a (directory name, file name) pair to the entry
at that depth-2 path.

Entries are regular files (with content), directories, or symbolic links.
A symbolic link carries one bit: whether its target — assumed to lie outside
the organized tree, so that its resolution is unaffected by the run — is a
regular file (`symlink true`) or the link is dangling (`symlink false`).
Symbolic links to directories are outside the model. -/

inductive Node : Type
  | file (content : String)
  | dir
  | symlink (targetIsFile : Bool)
deriving DecidableEq

/-- Python `Path.is_file()`: true for a regular file and for a symbolic link
that resolves to a regular file. -/
def nodeIsFile : Node → Bool
  | .file _ => true
  | .dir => false
  | .symlink t => t

/-- Python `Path.exists()`: follows symbolic links, so a dangling link does
not exist. -/
def nodeExists : Node → Bool
  | .file _ => true
  | .dir => true
  | .symlink t => t

structure FS : Type where
  top : List (String × Node)
  sub : List ((String × String) × Node)
deriving DecidableEq

/-- Representation invariant of a real directory tree: entry names are
unique at each level, and a depth-2 entry's parent is a directory. -/
def FS.WF (fs : FS) : Prop :=
  (fs.top.map Prod.fst).Nodup ∧ (fs.sub.map Prod.fst).Nodup ∧
    ∀ p ∈ fs.sub, alistGet fs.top p.1.1 = some Node.dir

instance (fs : FS) : Decidable fs.WF := by
  unfold FS.WF
  exact inferInstance

/-- Script line 81: `[f for f in root.iterdir() if f.is_file()]`, as the
list of names, in directory order. -/
def FS.listFiles (fs : FS) : List String :=
  (fs.top.filter fun p => nodeIsFile p.2).map Prod.fst

/-- `dest.exists()` for `dest = root/<c>/<name>`. -/
def destExists (fs : FS) (c name : String) : Bool :=
  match alistGet fs.sub (c, name) with
  | some n => nodeExists n
  | none => false

/-! ### Organizer (script lines 61-121) -/

/-- Per-file outcome of a run, mirroring the script's per-file report lines:
a dry-run preview, a move, a conflict skip, or a caught move error. -/
inductive Outcome : Type
  | preview (name category : String)
  | moved (name category : String)
  | skippedExists (name category : String)
  | error (name reason : String)
deriving DecidableEq

/-- Uncaught exceptions that abort a run: the precondition failure
(`NotADirectoryError`, line 76), `FileExistsError` escaping
`target_dir.mkdir(exist_ok=True)` (line 104), and `IsADirectoryError`
escaping `dest.unlink()` (line 112).  Only the rename of line 115 is inside
a `try`. -/
inductive OrgError : Type
  | notADirectory
  | fileExists (name : String)
  | isADirectory (dir name : String)
deriving DecidableEq

/-- Script line 104, `target_dir.mkdir(exist_ok=True)`: creates the
directory when the name is free; is a no-op when a directory is already
there; raises `FileExistsError` when a non-directory entry occupies the
name (`exist_ok` only suppresses the error when `is_dir()` holds). -/
def mkdirExistOk (fs : FS) (d : String) : Except OrgError FS :=
  match alistGet fs.top d with
  | none => .ok { fs with top := alistPut fs.top d Node.dir }
  | some Node.dir => .ok fs
  | some _ => .error (OrgError.fileExists d)

/-- Script lines 111-112: `if dest.exists(): dest.unlink()`.  `unlink`
removes a file or a symbolic link but raises `IsADirectoryError` on a
directory; a dangling link fails the `exists()` test and is left alone. -/
def unlinkIfExists (fs : FS) (c name : String) : Except OrgError FS :=
  match alistGet fs.sub (c, name) with
  | some Node.dir => .error (OrgError.isADirectory c name)
  | some (Node.file _) => .ok { fs with sub := alistDel fs.sub (c, name) }
  | some (Node.symlink true) => .ok { fs with sub := alistDel fs.sub (c, name) }
  | some (Node.symlink false) => .ok fs
  | none => .ok fs

/-- Script lines 114-118: `try: filepath.rename(dest) ... except OSError`.
Environmental failures of the rename primitive (permissions, device errors,
a vanished source) are modelled by the `oracle`; they are caught and
recorded, never raised.  A successful rename moves the top-level entry to
the category subdirectory, replacing whatever dangling link may occupy the
destination (POSIX rename semantics). -/
def renameStep (oracle : String → Option String) (fs : FS) (name c : String) :
    FS × Outcome :=
  match oracle name with
  | some reason => (fs, Outcome.error name reason)
  | none =>
    match alistGet fs.top name with
    | some n =>
      ({ top := alistDel fs.top name, sub := alistPut fs.sub (c, name) n },
        Outcome.moved name c)
    | none => (fs, Outcome.error name "FileNotFoundError")

/-- The live-mode body of the per-file loop (script lines 95-118, minus the
dry-run branch): classify, `mkdir`, conflict check, optional `unlink`, then
the guarded rename. -/
def processFile (skipExisting : Bool) (oracle : String → Option String)
    (fs : FS) (name : String) : Except OrgError (FS × Outcome) :=
  match mkdirExistOk fs (get_category_for_file name) with
  | .error e => .error e
  | .ok fs1 =>
    if destExists fs1 (get_category_for_file name) name && skipExisting then
      .ok (fs1, Outcome.skippedExists name (get_category_for_file name))
    else
      match unlinkIfExists fs1 (get_category_for_file name) name with
      | .error e => .error e
      | .ok fs2 => .ok (renameStep oracle fs2 name (get_category_for_file name))

/-- The per-file loop of script lines 94-118 over the pre-computed file
list, collecting one outcome per processed file; an uncaught exception
aborts the remainder of the loop. -/
def orgLoop (dryRun skipExisting : Bool) (oracle : String → Option String) :
    FS → List String → Except OrgError (FS × List Outcome)
  | fs, [] => .ok (fs, [])
  | fs, name :: rest =>
    if dryRun then
      match orgLoop dryRun skipExisting oracle fs rest with
      | .error e => .error e
      | .ok (fs2, outs) =>
        .ok (fs2, Outcome.preview name (get_category_for_file name) :: outs)
    else
      match processFile skipExisting oracle fs name with
      | .error e => .error e
      | .ok (fs1, out) =>
        match orgLoop dryRun skipExisting oracle fs1 rest with
        | .error e => .error e
        | .ok (fs2, outs) => .ok (fs2, out :: outs)

/-- Script lines 61-121, `organise_folder`.  The target of the run is
`none` when `folder_path` does not resolve to an existing directory (the
`not root.is_dir()` test of line 75), and `some fs` with the directory's
content otherwise.  The empty-listing early return of lines 82-84 is
behaviorally the loop on the empty list. -/
def organise_folder (world : Option FS) (dry_run skip_existing : Bool)
    (oracle : String → Option String) : Except OrgError (FS × List Outcome) :=
  match world with
  | none => .error OrgError.notADirectory
  | some fs => orgLoop dry_run skip_existing oracle fs fs.listFiles

/-- The all-renames-succeed environment. -/
def noFail : String → Option String := fun _ => none

/-! ### Dry-run (C3) -/

theorem orgLoop_dryRun (skip : Bool) (oracle : String → Option String) :
    ∀ (names : List String) (fs : FS),
      orgLoop true skip oracle fs names =
        .ok (fs, names.map fun nm => Outcome.preview nm (get_category_for_file nm)) := by
  intro names
  induction names with
  | nil => intro fs; rfl
  | cons nm rest ih => intro fs; simp [orgLoop, ih]

/-- C3.  A dry-run invocation mutates nothing: on any target directory it
succeeds, returns the state unchanged (no directory created, no file
touched), and reports one preview line per enumerated file. -/
theorem C3_dry_run_no_op (fs : FS) (skip : Bool) (oracle : String → Option String) :
    organise_folder (some fs) true skip oracle =
      .ok (fs, fs.listFiles.map fun nm => Outcome.preview nm (get_category_for_file nm)) := by
  simp [organise_folder, orgLoop_dryRun]

/-! ### Precondition error (C9) -/

theorem mkdirExistOk_error_shape (fs : FS) (d : String) (e : OrgError)
    (h : mkdirExistOk fs d = .error e) : e = OrgError.fileExists d := by
  unfold mkdirExistOk at h
  cases hg : alistGet fs.top d with
  | none => rw [hg] at h; simp at h
  | some n => rw [hg] at h; cases n <;> simp_all

theorem unlinkIfExists_error_shape (fs : FS) (c name : String) (e : OrgError)
    (h : unlinkIfExists fs c name = .error e) : e = OrgError.isADirectory c name := by
  unfold unlinkIfExists at h
  cases hg : alistGet fs.sub (c, name) with
  | none => rw [hg] at h; simp at h
  | some n =>
    rw [hg] at h
    cases n with
    | file s => simp at h
    | dir => simp at h; exact h.symm
    | symlink t => cases t <;> simp at h

theorem processFile_error_shape (skip : Bool) (oracle : String → Option String)
    (fs : FS) (name : String) (e : OrgError)
    (h : processFile skip oracle fs name = .error e) :
    e = OrgError.fileExists (get_category_for_file name) ∨
      e = OrgError.isADirectory (get_category_for_file name) name := by
  unfold processFile at h
  split at h
  · rename_i e2 heq
    cases h
    exact Or.inl (mkdirExistOk_error_shape fs _ e heq)
  · rename_i fs1 heq
    split at h
    · exact Except.noConfusion h
    · split at h
      · rename_i e3 heq2
        cases h
        exact Or.inr (unlinkIfExists_error_shape fs1 _ _ e heq2)
      · exact Except.noConfusion h

theorem orgLoop_error_shape (dr skip : Bool) (oracle : String → Option String) :
    ∀ (names : List String) (fs : FS) (e : OrgError),
      orgLoop dr skip oracle fs names = .error e →
        (∃ c, e = OrgError.fileExists c) ∨ (∃ c n, e = OrgError.isADirectory c n) := by
  intro names
  induction names with
  | nil => intro fs e h; simp [orgLoop] at h
  | cons nm rest ih =>
    intro fs e h
    rw [orgLoop] at h
    split at h
    · split at h
      · rename_i e2 heq
        cases h
        exact ih fs e heq
      · exact Except.noConfusion h
    · split at h
      · rename_i e2 heq
        cases h
        rcases processFile_error_shape skip oracle fs nm e heq with h2 | h2
        · exact Or.inl ⟨_, h2⟩
        · exact Or.inr ⟨_, _, h2⟩
      · rename_i fs1 out heq
        split at h
        · rename_i e2 heq2
          cases h
          exact ih fs1 e heq2
        · exact Except.noConfusion h

/-- C9.  The run fails with `NotADirectoryError` exactly when the target is
not a directory: a missing or non-directory target produces that error with
the loop never entered (so nothing is mutated), while on a directory target
the run either succeeds or aborts with one of the loop's own exceptions
(`FileExistsError` or `IsADirectoryError`), never `NotADirectoryError`. -/
theorem C9_not_a_directory (dr skip : Bool) (oracle : String → Option String) :
    organise_folder none dr skip oracle = .error OrgError.notADirectory ∧
      ∀ fs : FS,
        (∃ r, organise_folder (some fs) dr skip oracle = .ok r) ∨
        (∃ c, organise_folder (some fs) dr skip oracle = .error (OrgError.fileExists c)) ∨
        (∃ c n, organise_folder (some fs) dr skip oracle =
          .error (OrgError.isADirectory c n)) := by
  refine ⟨rfl, ?_⟩
  intro fs
  cases h : organise_folder (some fs) dr skip oracle with
  | ok r => exact Or.inl ⟨r, rfl⟩
  | error e =>
    have h2 : orgLoop dr skip oracle fs fs.listFiles = .error e := h
    rcases orgLoop_error_shape dr skip oracle fs.listFiles fs e h2 with ⟨c, rfl⟩ | ⟨c, n, rfl⟩
    · exact Or.inr (Or.inl ⟨c, rfl⟩)
    · exact Or.inr (Or.inr ⟨c, n, rfl⟩)

/-! ### Counterexamples to C2, C5, C7 as stated -/

/-- C2, counterexample.  In a directory holding the regular files `a.png`
and `Images`, relocating `a.png` fails while creating the category
directory (`mkdir("Images")` raises `FileExistsError`, which is outside the
`try` around the rename): the failure is not caught, no `error` outcome is
recorded, and the whole run aborts with the remaining file unprocessed. -/
theorem C2_counterexample :
    organise_folder (some ⟨[("a.png", Node.file "x"), ("Images", Node.file "y")], []⟩)
        false true noFail = .error (OrgError.fileExists "Images") := by
  rfl

/-- C5, counterexample.  A symbolic link to a regular file satisfies
`is_file()`, so `link.png` is classified (to "Images") and relocated rather
than excluded and left untouched. -/
theorem C5_counterexample :
    organise_folder (some ⟨[("link.png", Node.symlink true)], []⟩) false true noFail =
      .ok (⟨[("Images", Node.dir)], [(("Images", "link.png"), Node.symlink true)]⟩,
        [Outcome.moved "link.png" "Images"]) := by
  rfl

/-- C7, counterexample.  With `skipExisting = false` and the computed
destination `Images/a.png` existing as a directory, the run does not remove
the destination and move the source: `dest.unlink()` raises
`IsADirectoryError` outside any `try` and the whole run aborts. -/
theorem C7_counterexample :
    organise_folder (some ⟨[("a.png", Node.file "x"), ("Images", Node.dir)],
        [(("Images", "a.png"), Node.dir)]⟩) false false noFail =
      .error (OrgError.isADirectory "Images" "a.png") := by
  rfl

/-! ### Association-list lemmas -/

theorem alistGet_put {α β : Type} [DecidableEq α] (l : List (α × β)) (k x : α) (v : β) :
    alistGet (alistPut l k v) x = if x = k then some v else alistGet l x := by
  induction l with
  | nil =>
    by_cases h : x = k
    · subst h; simp [alistPut, alistGet]
    · have h2 : ¬k = x := fun h3 => h h3.symm
      simp [alistPut, alistGet, h, h2]
  | cons p rest ih =>
    obtain ⟨k0, v0⟩ := p
    rw [alistPut]
    by_cases hk : k0 = k
    · rw [if_pos hk]
      subst hk
      by_cases hx : x = k0
      · subst hx; simp [alistGet]
      · have h2 : ¬k0 = x := fun h3 => hx h3.symm
        simp [alistGet, hx, h2]
    · rw [if_neg hk]
      by_cases hx : x = k0
      · subst hx
        have h2 : ¬x = k := fun h3 => hk (by rw [h3])
        simp [alistGet, h2]
      · have h2 : ¬k0 = x := fun h3 => hx h3.symm
        simp [alistGet, h2, ih]

theorem alistGet_del_ne {α β : Type} [DecidableEq α] (l : List (α × β)) (k x : α)
    (h : x ≠ k) : alistGet (alistDel l k) x = alistGet l x := by
  induction l with
  | nil => rfl
  | cons p rest ih =>
    obtain ⟨k0, v0⟩ := p
    rw [alistDel]
    by_cases hk : k0 = k
    · rw [if_pos hk]
      have h2 : ¬k0 = x := fun h3 => h (by rw [← h3, hk])
      rw [alistGet, if_neg h2]
    · rw [if_neg hk, alistGet, alistGet, ih]

theorem alistDel_sublist {α β : Type} [DecidableEq α] (l : List (α × β)) (k : α) :
    List.Sublist (alistDel l k) l := by
  induction l with
  | nil => exact List.Sublist.refl _
  | cons p rest ih =>
    obtain ⟨k0, v0⟩ := p
    rw [alistDel]
    by_cases hk : k0 = k
    · rw [if_pos hk]
      exact List.sublist_cons_self _ _
    · rw [if_neg hk]
      exact ih.cons₂ _

theorem alistGet_none_iff {α β : Type} [DecidableEq α] (l : List (α × β)) (x : α) :
    alistGet l x = none ↔ x ∉ l.map Prod.fst := by
  induction l with
  | nil => simp [alistGet]
  | cons p rest ih =>
    obtain ⟨k0, v0⟩ := p
    rw [alistGet]
    by_cases hk : k0 = x
    · subst hk
      simp
    · have h2 : ¬x = k0 := fun h3 => hk h3.symm
      rw [if_neg hk]
      simp [h2, ih]

theorem alistGet_del_self {α β : Type} [DecidableEq α] (l : List (α × β)) (k : α)
    (h : (l.map Prod.fst).Nodup) : alistGet (alistDel l k) k = none := by
  induction l with
  | nil => rfl
  | cons p rest ih =>
    obtain ⟨k0, v0⟩ := p
    simp only [List.map_cons, List.nodup_cons] at h
    rw [alistDel]
    by_cases hk : k0 = k
    · rw [if_pos hk]
      rw [alistGet_none_iff]
      rw [← hk]
      exact h.1
    · rw [if_neg hk, alistGet, if_neg hk]
      exact ih h.2

theorem alistPut_keys_mem {α β : Type} [DecidableEq α] (l : List (α × β)) (k x : α) (v : β) :
    x ∈ (alistPut l k v).map Prod.fst ↔ x ∈ l.map Prod.fst ∨ x = k := by
  induction l with
  | nil => simp [alistPut]
  | cons p rest ih =>
    obtain ⟨k0, v0⟩ := p
    rw [alistPut]
    by_cases hk : k0 = k
    · rw [if_pos hk]
      subst hk
      simp only [List.map_cons, List.mem_cons]
      tauto
    · rw [if_neg hk]
      simp only [List.map_cons, List.mem_cons, ih]
      tauto

theorem alistPut_keys_nodup {α β : Type} [DecidableEq α] (l : List (α × β)) (k : α) (v : β)
    (h : (l.map Prod.fst).Nodup) : ((alistPut l k v).map Prod.fst).Nodup := by
  induction l with
  | nil => simp [alistPut]
  | cons p rest ih =>
    obtain ⟨k0, v0⟩ := p
    simp only [List.map_cons, List.nodup_cons] at h
    rw [alistPut]
    by_cases hk : k0 = k
    · rw [if_pos hk]
      simp only [List.map_cons, List.nodup_cons]
      refine ⟨?_, h.2⟩
      rw [← hk]
      exact h.1
    · rw [if_neg hk]
      simp only [List.map_cons, List.nodup_cons]
      refine ⟨?_, ih h.2⟩
      rw [alistPut_keys_mem]
      rintro (hmem | heq)
      · exact h.1 hmem
      · exact hk heq

theorem alistDel_keys_nodup {α β : Type} [DecidableEq α] (l : List (α × β)) (k : α)
    (h : (l.map Prod.fst).Nodup) : ((alistDel l k).map Prod.fst).Nodup :=
  h.sublist ((alistDel_sublist l k).map Prod.fst)

theorem alistGet_mem {α β : Type} [DecidableEq α] (l : List (α × β)) (x : α) (v : β)
    (h : alistGet l x = some v) : (x, v) ∈ l := by
  induction l with
  | nil => simp [alistGet] at h
  | cons p rest ih =>
    obtain ⟨k0, v0⟩ := p
    rw [alistGet] at h
    by_cases hk : k0 = x
    · rw [if_pos hk] at h
      cases h
      rw [← hk]
      exact List.mem_cons_self _ _
    · rw [if_neg hk] at h
      exact List.mem_cons_of_mem _ (ih h)

theorem alistPut_mem {α β : Type} [DecidableEq α] (l : List (α × β)) (k : α) (v : β)
    (p : α × β) (h : p ∈ alistPut l k v) : p = (k, v) ∨ p ∈ l := by
  induction l with
  | nil =>
    rw [alistPut] at h
    simp only [List.mem_singleton] at h
    exact Or.inl h
  | cons q rest ih =>
    obtain ⟨k0, v0⟩ := q
    rw [alistPut] at h
    by_cases hk : k0 = k
    · rw [if_pos hk] at h
      rcases List.mem_cons.mp h with h2 | h2
      · exact Or.inl h2
      · exact Or.inr (List.mem_cons_of_mem _ h2)
    · rw [if_neg hk] at h
      rcases List.mem_cons.mp h with h2 | h2
      · exact Or.inr (by simp [h2])
      · rcases ih h2 with h3 | h3
        · exact Or.inl h3
        · exact Or.inr (List.mem_cons_of_mem _ h3)

theorem alistDel_mem {α β : Type} [DecidableEq α] (l : List (α × β)) (k : α)
    (p : α × β) (h : p ∈ alistDel l k) : p ∈ l :=
  (alistDel_sublist l k).mem h

/-! ### Per-operation specifications -/

theorem mkdirExistOk_spec (fs : FS) (d : String) (fs1 : FS)
    (h : mkdirExistOk fs d = .ok fs1) :
    fs1.sub = fs.sub ∧
    alistGet fs1.top d = some Node.dir ∧
    (∀ k, k ≠ d → alistGet fs1.top k = alistGet fs.top k) ∧
    (alistGet fs.top d = none ∨ alistGet fs.top d = some Node.dir) ∧
    (alistGet fs.top d = some Node.dir → fs1 = fs) ∧
    (fs.WF → fs1.WF) := by
  unfold mkdirExistOk at h
  cases hg : alistGet fs.top d with
  | none =>
    rw [hg] at h
    cases h
    refine ⟨rfl, ?_, ?_, Or.inl rfl, ?_, ?_⟩
    · show alistGet (alistPut fs.top d Node.dir) d = some Node.dir
      rw [alistGet_put, if_pos rfl]
    · intro k hk
      show alistGet (alistPut fs.top d Node.dir) k = alistGet fs.top k
      rw [alistGet_put, if_neg hk]
    · intro hdir
      exact Option.noConfusion hdir
    · intro hwf
      obtain ⟨h1, h2, h3⟩ := hwf
      refine ⟨alistPut_keys_nodup _ _ _ h1, h2, ?_⟩
      intro p hp
      have h4 := h3 p hp
      by_cases hpd : p.1.1 = d
      · rw [hpd, hg] at h4
        exact Option.noConfusion h4
      · show alistGet (alistPut fs.top d Node.dir) p.1.1 = some Node.dir
        rw [alistGet_put, if_neg hpd]
        exact h4
  | some n =>
    rw [hg] at h
    cases n with
    | dir =>
      cases h
      exact ⟨rfl, hg, fun k hk => rfl, Or.inr rfl, fun _ => rfl, id⟩
    | file s => exact Except.noConfusion h
    | symlink t => exact Except.noConfusion h

theorem unlinkIfExists_spec (fs : FS) (c name : String) (fs2 : FS)
    (h : unlinkIfExists fs c name = .ok fs2) (hsubnd : (fs.sub.map Prod.fst).Nodup) :
    fs2.top = fs.top ∧
    (∀ key, key ≠ (c, name) → alistGet fs2.sub key = alistGet fs.sub key) ∧
    (∀ p ∈ fs2.sub, p ∈ fs.sub) ∧
    (fs2.sub.map Prod.fst).Nodup ∧
    (destExists fs c name = false → fs2 = fs) ∧
    (destExists fs c name = true → alistGet fs2.sub (c, name) = none) := by
  unfold unlinkIfExists at h
  cases hg : alistGet fs.sub (c, name) with
  | none =>
    rw [hg] at h
    cases h
    refine ⟨rfl, fun key hk => rfl, fun p hp => hp, hsubnd, fun _ => rfl, ?_⟩
    intro hd
    unfold destExists at hd
    rw [hg] at hd
    exact Bool.noConfusion hd
  | some n =>
    rw [hg] at h
    cases n with
    | dir => exact Except.noConfusion h
    | file s =>
      cases h
      refine ⟨rfl, ?_, ?_, alistDel_keys_nodup _ _ hsubnd, ?_, ?_⟩
      · intro key hk
        exact alistGet_del_ne _ _ _ hk
      · intro p hp
        exact alistDel_mem _ _ _ hp
      · intro hd
        unfold destExists at hd
        rw [hg] at hd
        exact Bool.noConfusion hd
      · intro _
        exact alistGet_del_self _ _ hsubnd
    | symlink t =>
      cases t with
      | true =>
        cases h
        refine ⟨rfl, ?_, ?_, alistDel_keys_nodup _ _ hsubnd, ?_, ?_⟩
        · intro key hk
          exact alistGet_del_ne _ _ _ hk
        · intro p hp
          exact alistDel_mem _ _ _ hp
        · intro hd
          unfold destExists at hd
          rw [hg] at hd
          exact Bool.noConfusion hd
        · intro _
          exact alistGet_del_self _ _ hsubnd
      | false =>
        cases h
        refine ⟨rfl, fun key hk => rfl, fun p hp => hp, hsubnd, fun _ => rfl, ?_⟩
        intro hd
        unfold destExists at hd
        rw [hg] at hd
        exact Bool.noConfusion hd

/-- The three possible fates of one processed file, stated between a state
`fs` before the file's turn and a state `fs2` at or after the end of its
turn: a conflict skip (source and destination untouched), a caught rename
failure (source untouched, category directory present), or a successful move
(source gone from the top level — its name can at most be re-occupied by a
later `mkdir` — and its node at the destination). -/
def stepCases (skip : Bool) (oracle : String → Option String) (fs fs2 : FS)
    (nm : String) (n0 : Node) (out : Outcome) : Prop :=
  (destExists fs (get_category_for_file nm) nm = true ∧ skip = true ∧
    out = Outcome.skippedExists nm (get_category_for_file nm) ∧
    alistGet fs2.top nm = some n0 ∧
    alistGet fs2.sub (get_category_for_file nm, nm) =
      alistGet fs.sub (get_category_for_file nm, nm)) ∨
  (∃ r, oracle nm = some r ∧
    ¬(destExists fs (get_category_for_file nm) nm = true ∧ skip = true) ∧
    out = Outcome.error nm r ∧
    alistGet fs2.top nm = some n0 ∧
    alistGet fs2.top (get_category_for_file nm) = some Node.dir) ∨
  (oracle nm = none ∧
    ¬(destExists fs (get_category_for_file nm) nm = true ∧ skip = true) ∧
    out = Outcome.moved nm (get_category_for_file nm) ∧
    (alistGet fs2.top nm = none ∨ alistGet fs2.top nm = some Node.dir) ∧
    alistGet fs2.sub (get_category_for_file nm, nm) = some n0)

theorem processFile_ok_spec (skip : Bool) (oracle : String → Option String)
    (fs : FS) (nm : String) (n0 : Node) (fsp : FS) (out : Outcome)
    (hwf : fs.WF) (hsrc : alistGet fs.top nm = some n0) (hfile : nodeIsFile n0 = true)
    (h : processFile skip oracle fs nm = .ok (fsp, out)) :
    fsp.WF ∧
    nm ≠ get_category_for_file nm ∧
    (alistGet fs.top (get_category_for_file nm) = none ∨
      alistGet fs.top (get_category_for_file nm) = some Node.dir) ∧
    alistGet fsp.top (get_category_for_file nm) = some Node.dir ∧
    (∀ k v, k ≠ nm → alistGet fs.top k = some v → alistGet fsp.top k = some v) ∧
    (∀ k, k ≠ nm → k ≠ get_category_for_file nm →
      alistGet fsp.top k = alistGet fs.top k) ∧
    (∀ k, (alistGet fs.top k = none ∨ alistGet fs.top k = some Node.dir) →
      (alistGet fsp.top k = none ∨ alistGet fsp.top k = some Node.dir)) ∧
    (∀ key, key ≠ (get_category_for_file nm, nm) →
      alistGet fsp.sub key = alistGet fs.sub key) ∧
    (∀ k n, alistGet fsp.top k = some n → nodeIsFile n = true →
      alistGet fs.top k = some n) ∧
    stepCases skip oracle fs fsp nm n0 out := by
  unfold processFile at h
  split at h
  · exact Except.noConfusion h
  · rename_i fs1 hmk
    obtain ⟨hsub1, hdir1, hfr1, hpre1, hid1, hwfp1⟩ := mkdirExistOk_spec fs _ fs1 hmk
    have hwf1 : fs1.WF := hwfp1 hwf
    have hnmc : nm ≠ get_category_for_file nm := by
      intro he
      rcases hpre1 with h2 | h2
      · rw [← he, hsrc] at h2
        exact Option.noConfusion h2
      · rw [← he, hsrc] at h2
        injection h2 with h3
        rw [h3] at hfile
        simp [nodeIsFile] at hfile
    have htop1nm : alistGet fs1.top nm = some n0 := by
      rw [hfr1 nm hnmc]
      exact hsrc
    have hdest1 : destExists fs1 (get_category_for_file nm) nm =
        destExists fs (get_category_for_file nm) nm := by
      unfold destExists
      rw [hsub1]
    have hmono1 : ∀ k v, alistGet fs.top k = some v → alistGet fs1.top k = some v := by
      intro k v hget
      by_cases hkc : k = get_category_for_file nm
      · subst hkc
        rcases hpre1 with h2 | h2
        · rw [hget] at h2
          exact Option.noConfusion h2
        · rw [hget] at h2
          injection h2 with h3
          rw [h3]
          exact hdir1
      · rw [hfr1 k hkc]
        exact hget
    have hback1 : ∀ k n, alistGet fs1.top k = some n → nodeIsFile n = true →
        alistGet fs.top k = some n := by
      intro k n hget hnf
      by_cases hkc : k = get_category_for_file nm
      · subst hkc
        rw [hdir1] at hget
        injection hget with h3
        rw [← h3] at hnf
        simp [nodeIsFile] at hnf
      · rw [hfr1 k hkc] at hget
        exact hget
    have hnd1 : ∀ k, (alistGet fs.top k = none ∨ alistGet fs.top k = some Node.dir) →
        (alistGet fs1.top k = none ∨ alistGet fs1.top k = some Node.dir) := by
      intro k hk
      by_cases hkc : k = get_category_for_file nm
      · subst hkc
        exact Or.inr hdir1
      · rw [hfr1 k hkc]
        exact hk
    split at h
    · rename_i hcond
      rw [Bool.and_eq_true] at hcond
      obtain ⟨hdest, hskip⟩ := hcond
      injection h with hpair
      injection hpair with hfs hout
      subst hfs
      subst hout
      refine ⟨hwf1, hnmc, hpre1, hdir1, ?_, ?_, hnd1, ?_, hback1, ?_⟩
      · intro k v hknm hget
        exact hmono1 k v hget
      · intro k hknm hkc
        exact hfr1 k hkc
      · intro key hkey
        rw [hsub1]
      · refine Or.inl ⟨?_, hskip, rfl, htop1nm, by rw [hsub1]⟩
        rw [← hdest1]
        exact hdest
    · rename_i hcond
      have hnotskip : ¬(destExists fs (get_category_for_file nm) nm = true ∧
          skip = true) := by
        intro hcontra
        apply hcond
        rw [Bool.and_eq_true, hdest1]
        exact hcontra
      split at h
      · exact Except.noConfusion h
      · rename_i fs2 hunl
        obtain ⟨htop2, hfr2, hmem2, hnd2, hid2, hdel2⟩ :=
          unlinkIfExists_spec fs1 _ nm fs2 hunl hwf1.2.1
        have hwf2 : fs2.WF := by
          refine ⟨?_, hnd2, ?_⟩
          · rw [htop2]
            exact hwf1.1
          · intro p hp
            rw [htop2]
            exact hwf1.2.2 p (hmem2 p hp)
        injection h with hpair
        cases horacle : oracle nm with
        | some r =>
          unfold renameStep at hpair
          rw [horacle] at hpair
          injection hpair with hfs hout
          subst hfs
          subst hout
          refine ⟨hwf2, hnmc, hpre1, ?_, ?_, ?_, ?_, ?_, ?_, ?_⟩
          · rw [htop2]
            exact hdir1
          · intro k v hknm hget
            rw [htop2]
            exact hmono1 k v hget
          · intro k hknm hkc
            rw [htop2]
            exact hfr1 k hkc
          · intro k hk
            rw [htop2]
            exact hnd1 k hk
          · intro key hkey
            rw [hfr2 key hkey, hsub1]
          · intro k n hget hnf
            rw [htop2] at hget
            exact hback1 k n hget hnf
          · refine Or.inr (Or.inl ⟨r, horacle, hnotskip, rfl, ?_, ?_⟩)
            · rw [htop2]
              exact htop1nm
            · rw [htop2]
              exact hdir1
        | none =>
          unfold renameStep at hpair
          rw [horacle] at hpair
          have htop2nm : alistGet fs2.top nm = some n0 := by
            rw [htop2]
            exact htop1nm
          rw [htop2nm] at hpair
          injection hpair with hfs hout
          subst hfs
          subst hout
          have hcnm : get_category_for_file nm ≠ nm := fun h3 => hnmc h3.symm
          have hnd2top : (fs2.top.map Prod.fst).Nodup := by
            rw [htop2]
            exact hwf1.1
          refine ⟨?_, hnmc, hpre1, ?_, ?_, ?_, ?_, ?_, ?_, ?_⟩
          · refine ⟨alistDel_keys_nodup _ _ hnd2top, alistPut_keys_nodup _ _ _ hnd2, ?_⟩
            intro p hp
            rcases alistPut_mem _ _ _ p hp with hp2 | hp2
            · rw [hp2]
              show alistGet (alistDel fs2.top nm) (get_category_for_file nm) = some Node.dir
              rw [alistGet_del_ne _ _ _ hcnm, htop2]
              exact hdir1
            · have h4 := hwf2.2.2 p hp2
              by_cases hpn : p.1.1 = nm
              · rw [hpn, htop2nm] at h4
                injection h4 with h5
                rw [h5] at hfile
                simp [nodeIsFile] at hfile
              · show alistGet (alistDel fs2.top nm) p.1.1 = some Node.dir
                rw [alistGet_del_ne _ _ _ hpn]
                exact h4
          · show alistGet (alistDel fs2.top nm) (get_category_for_file nm) = some Node.dir
            rw [alistGet_del_ne _ _ _ hcnm, htop2]
            exact hdir1
          · intro k v hknm hget
            show alistGet (alistDel fs2.top nm) k = some v
            rw [alistGet_del_ne _ _ _ hknm, htop2]
            exact hmono1 k v hget
          · intro k hknm hkc
            show alistGet (alistDel fs2.top nm) k = alistGet fs.top k
            rw [alistGet_del_ne _ _ _ hknm, htop2]
            exact hfr1 k hkc
          · intro k hk
            by_cases hknm : k = nm
            · subst hknm
              rcases hk with h2 | h2
              · rw [hsrc] at h2
                exact Option.noConfusion h2
              · rw [hsrc] at h2
                injection h2 with h3
                rw [h3] at hfile
                simp [nodeIsFile] at hfile
            · show alistGet (alistDel fs2.top nm) k = none ∨
                alistGet (alistDel fs2.top nm) k = some Node.dir
              rw [alistGet_del_ne _ _ _ hknm, htop2]
              exact hnd1 k hk
          · intro key hkey
            show alistGet (alistPut fs2.sub (get_category_for_file nm, nm) n0) key =
              alistGet fs.sub key
            rw [alistGet_put, if_neg hkey, hfr2 key hkey, hsub1]
          · intro k n hget hnf
            by_cases hknm : k = nm
            · have hget2 : alistGet (alistDel fs2.top nm) nm = some n := hknm ▸ hget
              rw [alistGet_del_self _ _ hnd2top] at hget2
              exact Option.noConfusion hget2
            · have hget2 : alistGet (alistDel fs2.top nm) k = some n := hget
              rw [alistGet_del_ne _ _ _ hknm, htop2] at hget2
              exact hback1 k n hget2 hnf
          · refine Or.inr (Or.inr ⟨horacle, hnotskip, rfl, ?_, ?_⟩)
            · exact Or.inl (alistGet_del_self _ _ hnd2top)
            · show alistGet (alistPut fs2.sub (get_category_for_file nm, nm) n0)
                (get_category_for_file nm, nm) = some n0
              rw [alistGet_put, if_pos rfl]

/-! ### The live-mode loop specification -/

/-- The fate of the `j`-th processed file `nm` in a completed live run from
`fs` to `fs2` reporting `outs`: its initial node, and one of the three
`stepCases` fates, stated against the initial and the final state. -/
def PerName (skip : Bool) (oracle : String → Option String) (fs fs2 : FS)
    (outs : List Outcome) (j : Nat) (nm : String) : Prop :=
  ∃ n0, alistGet fs.top nm = some n0 ∧ nodeIsFile n0 = true ∧
    ∃ out, outs.get? j = some out ∧ stepCases skip oracle fs fs2 nm n0 out

theorem orgLoop_ok_spec (skip : Bool) (oracle : String → Option String) :
    ∀ (names : List String) (fs fs2 : FS) (outs : List Outcome),
      fs.WF → names.Nodup →
      (∀ m ∈ names, ∃ n, alistGet fs.top m = some n ∧ nodeIsFile n = true) →
      orgLoop false skip oracle fs names = .ok (fs2, outs) →
      fs2.WF ∧
      outs.length = names.length ∧
      (∀ k v, k ∉ names → alistGet fs.top k = some v → alistGet fs2.top k = some v) ∧
      (∀ key : String × String, (∀ m ∈ names, key ≠ (get_category_for_file m, m)) →
        alistGet fs2.sub key = alistGet fs.sub key) ∧
      (∀ k n, alistGet fs2.top k = some n → nodeIsFile n = true →
        alistGet fs.top k = some n) ∧
      (∀ k, (alistGet fs.top k = none ∨ alistGet fs.top k = some Node.dir) →
        (alistGet fs2.top k = none ∨ alistGet fs2.top k = some Node.dir)) ∧
      (∀ j nm, names.get? j = some nm → PerName skip oracle fs fs2 outs j nm) := by
  intro names
  induction names with
  | nil =>
    intro fs fs2 outs hwf hnd hinv h
    rw [orgLoop] at h
    injection h with hp
    injection hp with h1 h2
    subst h1
    subst h2
    refine ⟨hwf, rfl, fun k v hk hget => hget, fun key hk => rfl,
      fun k n hg hf => hg, fun k hk => hk, ?_⟩
    intro j nm hj
    simp at hj
  | cons nm rest ih =>
    intro fs fs2 outs hwf hnd hinv h
    rw [orgLoop] at h
    rw [if_neg Bool.false_ne_true] at h
    split at h
    · exact Except.noConfusion h
    · rename_i fs1 out heq
      split at h
      · exact Except.noConfusion h
      · rename_i fs2x outsx heq2
        injection h with hp2
        injection hp2 with h1 h2
        subst h1
        subst h2
        obtain ⟨n0, hsrc, hfile⟩ := hinv nm (List.mem_cons_self nm rest)
        obtain ⟨hwfp, hnmc, hpre, hdirp, hmono, hfr, hndp, hsubfr, hback, hstep⟩ :=
          processFile_ok_spec skip oracle fs nm n0 fs1 out hwf hsrc hfile heq
        have hnmrest : nm ∉ rest := (List.nodup_cons.mp hnd).1
        have hndrest : rest.Nodup := (List.nodup_cons.mp hnd).2
        have hinv1 : ∀ m ∈ rest, ∃ n, alistGet fs1.top m = some n ∧
            nodeIsFile n = true := by
          intro m hm
          obtain ⟨n, hget, hf⟩ := hinv m (List.mem_cons_of_mem _ hm)
          exact ⟨n, hmono m n (fun h3 => hnmrest (h3 ▸ hm)) hget, hf⟩
        obtain ⟨hwf2, hlen, hmonoL, hsubL, hbackL, hndL, hperL⟩ :=
          ih fs1 fs2x outsx hwfp hndrest hinv1 heq2
        refine ⟨hwf2, ?_, ?_, ?_, ?_, ?_, ?_⟩
        · simp [hlen]
        · intro k v hk hget
          have hknm : k ≠ nm := fun h3 => hk (h3 ▸ List.mem_cons_self nm rest)
          have hkrest : k ∉ rest := fun h3 => hk (List.mem_cons_of_mem _ h3)
          exact hmonoL k v hkrest (hmono k v hknm hget)
        · intro key hkey
          rw [hsubL key (fun m hm => hkey m (List.mem_cons_of_mem _ hm))]
          exact hsubfr key (hkey nm (List.mem_cons_self _ _))
        · intro k n hget hf
          exact hback k n (hbackL k n hget hf) hf
        · intro k hk
          exact hndL k (hndp k hk)
        · intro j nmj hj
          cases j with
          | zero =>
            simp only [List.get?_cons_zero, Option.some_inj] at hj
            subst hj
            have hkeyfr : ∀ m ∈ rest,
                (get_category_for_file nm, nm) ≠ (get_category_for_file m, m) := by
              intro m hm hcontra
              have h4 : nm = m := congrArg Prod.snd hcontra
              exact hnmrest (h4 ▸ hm)
            refine ⟨n0, hsrc, hfile, out, by simp, ?_⟩
            rcases hstep with ⟨hd, hs, hout, htopnm, hsubnm⟩ |
                ⟨r, hor, hns, hout, htopnm, htopc⟩ |
                ⟨hor, hns, hout, htopnm, hsubnm⟩
            · refine Or.inl ⟨hd, hs, hout, ?_, ?_⟩
              · exact hmonoL nm n0 hnmrest htopnm
              · rw [hsubL _ hkeyfr]
                exact hsubnm
            · refine Or.inr (Or.inl ⟨r, hor, hns, hout, ?_, ?_⟩)
              · exact hmonoL nm n0 hnmrest htopnm
              · have hcrest : get_category_for_file nm ∉ rest := by
                  intro hm
                  obtain ⟨n, hget, hf⟩ := hinv1 (get_category_for_file nm) hm
                  rw [hdirp] at hget
                  injection hget with h3
                  rw [← h3] at hf
                  simp [nodeIsFile] at hf
                exact hmonoL _ _ hcrest hdirp
            · refine Or.inr (Or.inr ⟨hor, hns, hout, ?_, ?_⟩)
              · exact hndL nm htopnm
              · rw [hsubL _ hkeyfr]
                exact hsubnm
          | succ j2 =>
            simp only [List.get?_cons_succ] at hj
            have hmemj : nmj ∈ rest := List.get?_mem hj
            have hmnm : nmj ≠ nm := fun h3 => hnmrest (h3 ▸ hmemj)
            obtain ⟨n1, hsrc1, hfile1, out1, hout1, hsc⟩ := hperL j2 nmj hj
            have hkeyne : (get_category_for_file nmj, nmj) ≠
                (get_category_for_file nm, nm) := by
              intro hcontra
              have h4 : nmj = nm := congrArg Prod.snd hcontra
              exact hmnm h4
            have hdeq : destExists fs1 (get_category_for_file nmj) nmj =
                destExists fs (get_category_for_file nmj) nmj := by
              unfold destExists
              rw [hsubfr _ hkeyne]
            refine ⟨n1, hback nmj n1 hsrc1 hfile1, hfile1, out1, by simpa using hout1, ?_⟩
            rcases hsc with ⟨hd, hs, hout, htopnm, hsubnm⟩ |
                ⟨r, hor, hns, hout, htopnm, htopc⟩ |
                ⟨hor, hns, hout, htopnm, hsubnm⟩
            · rw [hdeq] at hd
              refine Or.inl ⟨hd, hs, hout, htopnm, ?_⟩
              rw [hsubnm]
              exact hsubfr _ hkeyne
            · rw [hdeq] at hns
              exact Or.inr (Or.inl ⟨r, hor, hns, hout, htopnm, htopc⟩)
            · rw [hdeq] at hns
              exact Or.inr (Or.inr ⟨hor, hns, hout, htopnm, hsubnm⟩)

/-! ### Enumeration lemmas -/

theorem alistGet_of_mem {α β : Type} [DecidableEq α] (l : List (α × β)) (k : α) (v : β)
    (h : (k, v) ∈ l) (hnd : (l.map Prod.fst).Nodup) : alistGet l k = some v := by
  induction l with
  | nil => simp at h
  | cons p rest ih =>
    obtain ⟨k0, v0⟩ := p
    simp only [List.map_cons, List.nodup_cons] at hnd
    rcases List.mem_cons.mp h with h2 | h2
    · injection h2 with ha hb
      subst ha
      subst hb
      rw [alistGet, if_pos rfl]
    · have hk0 : k0 ≠ k := by
        intro h3
        subst h3
        exact hnd.1 (List.mem_map_of_mem Prod.fst h2)
      rw [alistGet, if_neg hk0]
      exact ih h2 hnd.2

theorem mem_listFiles_of_get (fs : FS) (k : String) (n : Node)
    (hget : alistGet fs.top k = some n) (hf : nodeIsFile n = true) :
    k ∈ fs.listFiles := by
  unfold FS.listFiles
  have hmem := alistGet_mem _ _ _ hget
  exact List.mem_map_of_mem Prod.fst (List.mem_filter.mpr ⟨hmem, hf⟩)

theorem get_of_mem_listFiles (fs : FS) (k : String)
    (hnd : (fs.top.map Prod.fst).Nodup) (hmem : k ∈ fs.listFiles) :
    ∃ n, alistGet fs.top k = some n ∧ nodeIsFile n = true := by
  unfold FS.listFiles at hmem
  rw [List.mem_map] at hmem
  obtain ⟨p, hp, hpk⟩ := hmem
  rw [List.mem_filter] at hp
  obtain ⟨hpmem, hpf⟩ := hp
  refine ⟨p.2, ?_, hpf⟩
  rw [← hpk]
  exact alistGet_of_mem _ _ _ hpmem hnd

theorem not_mem_listFiles (fs : FS) (k : String) (n : Node)
    (hnd : (fs.top.map Prod.fst).Nodup)
    (hget : alistGet fs.top k = some n) (hf : nodeIsFile n = false) :
    k ∉ fs.listFiles := by
  intro hmem
  obtain ⟨n2, hget2, hf2⟩ := get_of_mem_listFiles fs k hnd hmem
  rw [hget] at hget2
  injection hget2 with h3
  rw [← h3] at hf2
  rw [hf] at hf2
  exact Bool.noConfusion hf2

theorem listFiles_nodup (fs : FS) (hnd : (fs.top.map Prod.fst).Nodup) :
    fs.listFiles.Nodup :=
  hnd.sublist ((List.filter_sublist _).map Prod.fst)

theorem listFiles_inv (fs : FS) (hnd : (fs.top.map Prod.fst).Nodup) :
    ∀ m ∈ fs.listFiles, ∃ n, alistGet fs.top m = some n ∧ nodeIsFile n = true :=
  fun m hm => get_of_mem_listFiles fs m hnd hm

/-! ### C2, amended -/

/-- C2, amended.  A live run that completes gives every enumerated file
exactly one outcome — a caught per-file failure never costs a later file its
processing — and a file whose rename primitive fails is reported either as
the conflict skip that kept it from reaching the rename, or as
`error(reason)` carrying the failure's reason.  Failures while creating the
category directory or while removing an existing destination are, by
contrast, not caught and abort the run (see `C2_counterexample`). -/
theorem C2_rename_failures_caught (fs : FS) (skip : Bool)
    (oracle : String → Option String) (fs2 : FS) (outs : List Outcome)
    (hwf : fs.WF)
    (h : organise_folder (some fs) false skip oracle = .ok (fs2, outs)) :
    outs.length = fs.listFiles.length ∧
    ∀ j nm r, fs.listFiles.get? j = some nm → oracle nm = some r →
      outs.get? j = some (Outcome.skippedExists nm (get_category_for_file nm)) ∨
      outs.get? j = some (Outcome.error nm r) := by
  obtain ⟨hwf2, hlen, hmono, hsub, hback, hnd, hper⟩ :=
    orgLoop_ok_spec skip oracle fs.listFiles fs fs2 outs hwf
      (listFiles_nodup fs hwf.1) (listFiles_inv fs hwf.1) h
  refine ⟨hlen, ?_⟩
  intro j nm r hj hor
  obtain ⟨n0, hsrc, hfile, out, hout, hsc⟩ := hper j nm hj
  rcases hsc with ⟨hd, hs, houteq, -, -⟩ | ⟨r2, hor2, hns, houteq, -, -⟩ |
      ⟨hor2, hns, houteq, -, -⟩
  · left
    rw [hout, houteq]
  · right
    rw [hout, houteq]
    rw [hor] at hor2
    injection hor2 with h3
    rw [h3]
  · rw [hor] at hor2
    exact Option.noConfusion hor2

def fsC2W : FS := ⟨[("a.png", Node.file "x"), ("b.txt", Node.file "y")], []⟩

def oracleC2W : String → Option String :=
  fun n => if n = "a.png" then some "boom" else none

/-- Witness for `C2_rename_failures_caught`: with the rename of `a.png`
failing, the run still completes, reports two outcomes for two files, and
records `error` for the failed file while `b.txt` is still moved. -/
theorem C2_rename_failures_caught_witness :
    [Outcome.error "a.png" "boom", Outcome.moved "b.txt" "Documents"].length =
        fsC2W.listFiles.length ∧
      ([Outcome.error "a.png" "boom", Outcome.moved "b.txt" "Documents"].get? 0 =
          some (Outcome.skippedExists "a.png" (get_category_for_file "a.png")) ∨
        [Outcome.error "a.png" "boom", Outcome.moved "b.txt" "Documents"].get? 0 =
          some (Outcome.error "a.png" "boom")) := by
  have h := C2_rename_failures_caught fsC2W true oracleC2W
    ⟨[("a.png", Node.file "x"), ("Images", Node.dir), ("Documents", Node.dir)],
      [(("Documents", "b.txt"), Node.file "y")]⟩
    [Outcome.error "a.png" "boom", Outcome.moved "b.txt" "Documents"]
    (by decide) (by rfl)
  exact ⟨h.1, h.2 0 "a.png" "boom" (by rfl) (by rfl)⟩

/-! ### C8 -/

theorem mkdirExistOk_of_dir (fs : FS) (d : String)
    (h : alistGet fs.top d = some Node.dir) : mkdirExistOk fs d = .ok fs := by
  unfold mkdirExistOk
  rw [h]

theorem processFile_skip_conflict (fs : FS) (oracle : String → Option String)
    (nm : String) (hwf : fs.WF)
    (hdest : destExists fs (get_category_for_file nm) nm = true) :
    processFile true oracle fs nm =
      .ok (fs, Outcome.skippedExists nm (get_category_for_file nm)) := by
  have hsub : ∃ dn, alistGet fs.sub (get_category_for_file nm, nm) = some dn := by
    unfold destExists at hdest
    cases hg : alistGet fs.sub (get_category_for_file nm, nm) with
    | none => rw [hg] at hdest; exact Bool.noConfusion hdest
    | some dn => exact ⟨dn, rfl⟩
  obtain ⟨dn, hdn⟩ := hsub
  have hdir : alistGet fs.top (get_category_for_file nm) = some Node.dir :=
    hwf.2.2 _ (alistGet_mem _ _ _ hdn)
  unfold processFile
  rw [mkdirExistOk_of_dir fs _ hdir]
  simp [hdest]

/-- C8.  For an enumerated file whose computed destination already exists
while `skipExisting` is true: the file's step succeeds with outcome
`skipped-exists` and the state exactly unchanged (the conflict can never
abort the run), and any completed run leaves both the source entry and the
destination entry untouched, recording the skip at the file's position. -/
theorem C8_conflict_skip (fs : FS) (oracle : String → Option String) (nm : String)
    (n0 dn : Node)
    (hwf : fs.WF)
    (hsrc : alistGet fs.top nm = some n0) (hfile : nodeIsFile n0 = true)
    (hdn : alistGet fs.sub (get_category_for_file nm, nm) = some dn)
    (hex : nodeExists dn = true) :
    processFile true oracle fs nm =
      .ok (fs, Outcome.skippedExists nm (get_category_for_file nm)) ∧
    ∀ fs2 outs, organise_folder (some fs) false true oracle = .ok (fs2, outs) →
      alistGet fs2.top nm = some n0 ∧
      alistGet fs2.sub (get_category_for_file nm, nm) = some dn ∧
      ∃ j, fs.listFiles.get? j = some nm ∧
        outs.get? j = some (Outcome.skippedExists nm (get_category_for_file nm)) := by
  have hdest : destExists fs (get_category_for_file nm) nm = true := by
    unfold destExists
    rw [hdn]
    exact hex
  refine ⟨processFile_skip_conflict fs oracle nm hwf hdest, ?_⟩
  intro fs2 outs h
  obtain ⟨hwf2, hlen, hmono, hsub, hback, hnd, hper⟩ :=
    orgLoop_ok_spec true oracle fs.listFiles fs fs2 outs hwf
      (listFiles_nodup fs hwf.1) (listFiles_inv fs hwf.1) h
  have hmem : nm ∈ fs.listFiles := mem_listFiles_of_get fs nm n0 hsrc hfile
  obtain ⟨j, hj⟩ := List.get?_of_mem hmem
  obtain ⟨n0b, hsrcb, hfileb, out, hout, hsc⟩ := hper j nm hj
  have hn0 : n0 = n0b := by
    rw [hsrc] at hsrcb
    exact Option.some_inj.mp hsrcb
  rcases hsc with ⟨hd, hs, houteq, htopnm, hsubnm⟩ | ⟨r, hor, hns, -, -, -⟩ |
      ⟨hor, hns, -, -, -⟩
  · refine ⟨?_, ?_, j, hj, ?_⟩
    · rw [hn0]
      exact htopnm
    · rw [hsubnm]
      exact hdn
    · rw [hout, houteq]
  · exact absurd ⟨hdest, rfl⟩ hns
  · exact absurd ⟨hdest, rfl⟩ hns

def fsC8W : FS := ⟨[("a.png", Node.file "new"), ("Images", Node.dir)],
  [(("Images", "a.png"), Node.file "old")]⟩

/-- Witness for `C8_conflict_skip`: a conflicting `a.png` is skipped, the
step returns the state unchanged, and after the completed run both the
source (content "new") and the destination (content "old") are intact. -/
theorem C8_conflict_skip_witness :
    processFile true noFail fsC8W "a.png" =
        .ok (fsC8W, Outcome.skippedExists "a.png" "Images") ∧
      alistGet fsC8W.top "a.png" = some (Node.file "new") ∧
      alistGet fsC8W.sub ("Images", "a.png") = some (Node.file "old") := by
  have h := C8_conflict_skip fsC8W noFail "a.png" (Node.file "new") (Node.file "old")
    (by decide) (by rfl) (by rfl) (by rfl) (by rfl)
  have h2 := h.2 fsC8W [Outcome.skippedExists "a.png" "Images"] (by rfl)
  exact ⟨h.1, h2.1, h2.2.1⟩

/-! ### C7, amended -/

/-- C7, amended.  For an enumerated regular file whose computed destination
already exists as a non-directory entry (a directory there makes the
uncaught `unlink` abort the run instead — see `C7_counterexample`), with
`skipExisting = false` and the rename primitive succeeding, a completed run
replaces the destination: afterwards the destination holds the source's
node (its content) and the source's top-level entry is gone — its name can
at most be re-occupied by a category directory created later in the run. -/
theorem C7_overwrite (fs : FS) (oracle : String → Option String) (nm : String)
    (content : String) (dn : Node) (fs2 : FS) (outs : List Outcome)
    (hwf : fs.WF)
    (hsrc : alistGet fs.top nm = some (Node.file content))
    (hdn : alistGet fs.sub (get_category_for_file nm, nm) = some dn)
    (hex : nodeExists dn = true)
    (hor : oracle nm = none)
    (h : organise_folder (some fs) false false oracle = .ok (fs2, outs)) :
    alistGet fs2.sub (get_category_for_file nm, nm) = some (Node.file content) ∧
    (alistGet fs2.top nm = none ∨ alistGet fs2.top nm = some Node.dir) ∧
    ∃ j, fs.listFiles.get? j = some nm ∧
      outs.get? j = some (Outcome.moved nm (get_category_for_file nm)) := by
  obtain ⟨hwf2, hlen, hmono, hsub, hback, hnd, hper⟩ :=
    orgLoop_ok_spec false oracle fs.listFiles fs fs2 outs hwf
      (listFiles_nodup fs hwf.1) (listFiles_inv fs hwf.1) h
  have hmem : nm ∈ fs.listFiles := mem_listFiles_of_get fs nm _ hsrc rfl
  obtain ⟨j, hj⟩ := List.get?_of_mem hmem
  obtain ⟨n0b, hsrcb, hfileb, out, hout, hsc⟩ := hper j nm hj
  have hn0 : Node.file content = n0b := by
    rw [hsrc] at hsrcb
    exact Option.some_inj.mp hsrcb
  rcases hsc with ⟨hd, hs, -, -, -⟩ | ⟨r, hor2, hns, -, -, -⟩ |
      ⟨hor2, hns, houteq, htopnm, hsubnm⟩
  · exact Bool.noConfusion hs
  · rw [hor] at hor2
    exact Option.noConfusion hor2
  · refine ⟨?_, htopnm, j, hj, ?_⟩
    · rw [hn0]
      exact hsubnm
    · rw [hout, houteq]

def fsC7W : FS := ⟨[("a.png", Node.file "new"), ("Images", Node.dir)],
  [(("Images", "a.png"), Node.file "old")]⟩

def fsC7W2 : FS := ⟨[("Images", Node.dir)], [(("Images", "a.png"), Node.file "new")]⟩

/-- Witness for `C7_overwrite`: overwriting replaces `Images/a.png`
(content "old") with the source's content "new" and removes the source from
the top level. -/
theorem C7_overwrite_witness :
    alistGet fsC7W2.sub ("Images", "a.png") = some (Node.file "new") ∧
      (alistGet fsC7W2.top "a.png" = none ∨
        alistGet fsC7W2.top "a.png" = some Node.dir) := by
  have h := C7_overwrite fsC7W noFail "a.png" "new" (Node.file "old") fsC7W2
    [Outcome.moved "a.png" "Images"] (by decide) (by rfl) (by rfl) (by rfl) (by rfl)
    (by rfl)
  exact ⟨h.1, h.2.1⟩

/-! ### C5, amended -/

/-- C5, amended.  Enumeration keeps exactly the entries whose `is_file()`
test holds: directories and symbolic links that do not resolve to regular
files are excluded from classification and their top-level entries survive
any completed live run unchanged; but a symbolic link that resolves to a
regular file passes `is_file()` and is classified and relocated like a file
(see `C5_counterexample`). -/
theorem C5_regular_files_only (fs : FS) (skip : Bool)
    (oracle : String → Option String) (fs2 : FS) (outs : List Outcome)
    (hwf : fs.WF)
    (h : organise_folder (some fs) false skip oracle = .ok (fs2, outs)) :
    (∀ k n, alistGet fs.top k = some n → nodeIsFile n = false →
      k ∉ fs.listFiles ∧ alistGet fs2.top k = some n) ∧
    (∀ k, alistGet fs.top k = some (Node.symlink true) → k ∈ fs.listFiles) := by
  obtain ⟨hwf2, hlen, hmono, hsub, hback, hnd, hper⟩ :=
    orgLoop_ok_spec skip oracle fs.listFiles fs fs2 outs hwf
      (listFiles_nodup fs hwf.1) (listFiles_inv fs hwf.1) h
  constructor
  · intro k n hget hnf
    have hnot := not_mem_listFiles fs k n hwf.1 hget hnf
    exact ⟨hnot, hmono k n hnot hget⟩
  · intro k hget
    exact mem_listFiles_of_get fs k _ hget rfl

def fsC5W : FS := ⟨[("docs", Node.dir), ("broken", Node.symlink false),
  ("link.png", Node.symlink true)], []⟩

def fsC5W2 : FS := ⟨[("docs", Node.dir), ("broken", Node.symlink false),
  ("Images", Node.dir)], [(("Images", "link.png"), Node.symlink true)]⟩

/-- Witness for `C5_regular_files_only`: the directory `docs` and the
dangling link `broken` are excluded and untouched, while the
file-resolving link `link.png` is enumerated (and indeed relocated). -/
theorem C5_regular_files_only_witness :
    ("docs" ∉ fsC5W.listFiles ∧ alistGet fsC5W2.top "docs" = some Node.dir) ∧
      ("broken" ∉ fsC5W.listFiles ∧
        alistGet fsC5W2.top "broken" = some (Node.symlink false)) ∧
      "link.png" ∈ fsC5W.listFiles := by
  have h := C5_regular_files_only fsC5W true noFail fsC5W2
    [Outcome.moved "link.png" "Images"] (by decide) (by rfl)
  exact ⟨h.1 "docs" Node.dir (by rfl) (by rfl),
    h.1 "broken" (Node.symlink false) (by rfl) (by rfl),
    h.2 "link.png" (by rfl)⟩

/-! ### C4 -/

/-- A file the second pass can only skip or fail on: its destination already
exists, or its rename keeps failing while its category directory already
exists. -/
def stableFile (oracle : String → Option String) (fs : FS) (nm : String) : Prop :=
  destExists fs (get_category_for_file nm) nm = true ∨
    (oracle nm ≠ none ∧ alistGet fs.top (get_category_for_file nm) = some Node.dir)

theorem processFile_stable (fs : FS) (oracle : String → Option String) (nm : String)
    (hwf : fs.WF) (hst : stableFile oracle fs nm) :
    ∃ out, processFile true oracle fs nm = .ok (fs, out) := by
  rcases hst with hd | ⟨hor, hdir⟩
  · exact ⟨_, processFile_skip_conflict fs oracle nm hwf hd⟩
  · cases hdx : destExists fs (get_category_for_file nm) nm with
    | true => exact ⟨_, processFile_skip_conflict fs oracle nm hwf hdx⟩
    | false =>
      cases horacle : oracle nm with
      | none => exact absurd horacle hor
      | some r =>
        refine ⟨Outcome.error nm r, ?_⟩
        have hunl : unlinkIfExists fs (get_category_for_file nm) nm = .ok fs := by
          unfold unlinkIfExists
          unfold destExists at hdx
          cases hg : alistGet fs.sub (get_category_for_file nm, nm) with
          | none => rfl
          | some n =>
            rw [hg] at hdx
            cases n with
            | dir => exact Bool.noConfusion hdx
            | file s => exact Bool.noConfusion hdx
            | symlink t =>
              cases t with
              | true => exact Bool.noConfusion hdx
              | false => rfl
        unfold processFile
        rw [mkdirExistOk_of_dir fs _ hdir]
        simp [hdx, hunl, renameStep, horacle]

theorem orgLoop_stable (oracle : String → Option String) :
    ∀ (names : List String) (fs : FS),
      fs.WF → (∀ nm ∈ names, stableFile oracle fs nm) →
      ∃ outs, orgLoop false true oracle fs names = .ok (fs, outs) := by
  intro names
  induction names with
  | nil =>
    intro fs hwf hst
    exact ⟨[], rfl⟩
  | cons nm rest ih =>
    intro fs hwf hst
    obtain ⟨out, hp⟩ := processFile_stable fs oracle nm hwf
      (hst nm (List.mem_cons_self _ _))
    obtain ⟨outs, hrest⟩ := ih fs hwf (fun m hm => hst m (List.mem_cons_of_mem _ hm))
    refine ⟨out :: outs, ?_⟩
    rw [orgLoop, if_neg Bool.false_ne_true]
    simp only [hp, hrest]

/-- C4.  Live-mode organizing with `skipExisting = true` is idempotent: after
a completed first run, a second run over the resulting directory succeeds and
leaves the filesystem exactly unchanged — every file still listed at the top
level is either protected by an existing destination (it was skipped) or
fails its rename again with the category directory already in place — so
running the organizer twice produces the same final layout as running it
once. -/
theorem C4_idempotent (fs : FS) (oracle : String → Option String) (fs1 : FS)
    (outs1 : List Outcome)
    (hwf : fs.WF)
    (h1 : organise_folder (some fs) false true oracle = .ok (fs1, outs1)) :
    ∃ outs2, organise_folder (some fs1) false true oracle = .ok (fs1, outs2) := by
  obtain ⟨hwf1, hlen, hmono, hsub, hback, hnd, hper⟩ :=
    orgLoop_ok_spec true oracle fs.listFiles fs fs1 outs1 hwf
      (listFiles_nodup fs hwf.1) (listFiles_inv fs hwf.1) h1
  have hst : ∀ nm ∈ fs1.listFiles, stableFile oracle fs1 nm := by
    intro nm hm
    obtain ⟨n, hget1, hf⟩ := get_of_mem_listFiles fs1 nm hwf1.1 hm
    have hget0 : alistGet fs.top nm = some n := hback nm n hget1 hf
    have hmem0 : nm ∈ fs.listFiles := mem_listFiles_of_get fs nm n hget0 hf
    obtain ⟨j, hj⟩ := List.get?_of_mem hmem0
    obtain ⟨n0b, hsrcb, hfileb, out, hout, hsc⟩ := hper j nm hj
    rcases hsc with ⟨hd, hs, houteq, htopnm, hsubnm⟩ |
        ⟨r, hor, hns, houteq, htopnm, htopc⟩ |
        ⟨hor, hns, houteq, htopnm, hsubnm⟩
    · left
      unfold destExists
      rw [hsubnm]
      unfold destExists at hd
      exact hd
    · right
      constructor
      · rw [hor]
        exact fun h3 => Option.noConfusion h3
      · exact htopc
    · rcases htopnm with h3 | h3
      · rw [hget1] at h3
        exact Option.noConfusion h3
      · rw [hget1] at h3
        injection h3 with h4
        rw [h4] at hf
        simp [nodeIsFile] at hf
  obtain ⟨outs2, h2⟩ := orgLoop_stable oracle fs1.listFiles fs1 hwf1 hst
  exact ⟨outs2, h2⟩

def fsC4W : FS := ⟨[("a.png", Node.file "x")], []⟩

def fsC4W2 : FS := ⟨[("Images", Node.dir)], [(("Images", "a.png"), Node.file "x")]⟩

/-- Witness for `C4_idempotent`: after the first run moves `a.png` into
`Images/`, the second run succeeds and changes nothing. -/
theorem C4_idempotent_witness :
    ∃ outs2, organise_folder (some fsC4W2) false true noFail = .ok (fsC4W2, outs2) :=
  C4_idempotent fsC4W noFail fsC4W2 [Outcome.moved "a.png" "Images"]
    (by decide) (by rfl)

end OrganiseFiles
